import Mathlib

/-!
Shallow embedding of `src/Tellyo-mixer.cpp`, a JACK-based audio routing
matrix: input/output ports wrapping per-block sample buffers, matrix points
(gain nodes) accumulating `gain * input[i]` into output buffers, a `Dsp`
container orchestrating one block, and the `CountUsers` usage-count base
class gating destruction.

Modelling conventions:
- samples are exact rationals (`ℚ`) standing for the C++ `float`; the claims
  under study concern the structure of the mixing computation, not rounding;
- a buffer pointer is `Option Buf`: `none` is a null pointer, `some b` a
  pointer to a block buffer with contents `b`; the backend (JACK) is a
  function from port index to this block's buffer contents;
- ports are identified by their index in the owning `Dsp` container, playing
  the role of the C++ object pointers;
- `assert` failures and null-pointer dereferences are modelled by returning
  `none` from an `Option`-valued function;
- the `unsigned int users_count_` is modelled as an unbounded `Nat`
  (its 2^32 wrap is unreachable under the usage discipline studied here).
-/

namespace Tellyo

/-- Sample buffers: the contents of a per-block `float*` buffer. -/
abbrev Buf := List ℚ

/-- Embedding of `CountUsers::incrementUsers`: `users_count_++`. -/
def CountUsers.incrementUsers (users_count_ : Nat) : Nat :=
  users_count_ + 1

/-- Embedding of `CountUsers::decrementUsers`: `assert(users_count_); users_count_--;`.
`none` models the assertion firing on a zero counter. -/
def CountUsers.decrementUsers (users_count_ : Nat) : Option Nat :=
  if users_count_ = 0 then none else some (users_count_ - 1)

/-- Embedding of `CountUsers::hasUsers`: the counter converted to `bool`. -/
def CountUsers.hasUsers (users_count_ : Nat) : Bool :=
  users_count_ != 0

/-- Embedding of `Port::updateBufferAddress`: cache the buffer pointer handed
out by the backend (`jack_port_get_buffer`) for the current block. -/
def Port.updateBufferAddress (backend_buffer : Buf) : Option Buf :=
  some backend_buffer

/-- Embedding of `Port::buffer`: `assert(buffer_); return buffer_;`.
The result is the cached pointer; `none` models the assertion firing on a
null cached pointer. -/
def Port.buffer (buffer_ : Option Buf) : Option Buf :=
  match buffer_ with
  | none => none
  | some b => some b

/-- Embedding of `OutputPort::resetBuffer`: `std::fill(buffer_, buffer_+nframes, 0)`.
The first `nframes` samples become `0`, anything beyond is untouched. -/
def OutputPort.resetBuffer (nframes : Nat) (buffer_ : Buf) : Buf :=
  List.replicate nframes 0 ++ buffer_.drop nframes

/-- Embedding of `MatrixPoint`'s data: one input port, one output port (by
index into the owning `Dsp`, standing for the C++ pointers; `none` is the
null pointer left behind in a moved-from point) and the atomic gain. -/
structure MatrixPoint where
  input_ : Option Nat
  output_ : Option Nat
  gain_ : ℚ
deriving DecidableEq

/-- Embedding of `MatrixPoint::setGain`: `gain_.store(gain)`. -/
def MatrixPoint.setGain (pt : MatrixPoint) (gain : ℚ) : MatrixPoint :=
  { pt with gain_ := gain }

/-- Embedding of the loop in `MatrixPoint::process`:
`for (i = 0; i < samples_count; ++i) out_buffer[i] += gain * in_buffer[i];`
where `gain` is the single snapshot `gain_.load()` taken before the loop.
Samples at index `≥ samples_count` are untouched. -/
def accumulate (gain : ℚ) (samples_count : Nat) (in_buffer out_buffer : Buf) : Buf :=
  (List.range out_buffer.length).map (fun i =>
    if i < samples_count then out_buffer.getD i 0 + gain * in_buffer.getD i 0
    else out_buffer.getD i 0)

/-- Embedding of `Dsp`: the containers of input ports, output ports and
matrix points.  A port is its cached buffer pointer slot (usage counters
live in the control-path model below, they play no role in `process`). -/
structure Dsp where
  inputs : List (Option Buf)
  outputs : List (Option Buf)
  matrix_points : List MatrixPoint
deriving DecidableEq

/-- Embedding of `MatrixPoint::process`: dereference `input_` and `output_`
(null dereference modelled as failure), fetch both buffers through
`Port::buffer` (whose assertion may fire), snapshot the gain, then run the
accumulation loop, writing the result back through the output port. -/
def MatrixPoint.process (samples_count : Nat) (st : Dsp) (pt : MatrixPoint) : Option Dsp :=
  match pt.input_ with
  | none => none
  | some i =>
    match st.inputs[i]? with
    | none => none
    | some islot =>
      match Port.buffer islot with
      | none => none
      | some in_buffer =>
        match pt.output_ with
        | none => none
        | some o =>
          match st.outputs[o]? with
          | none => none
          | some oslot =>
            match Port.buffer oslot with
            | none => none
            | some out_buffer =>
              let gain := pt.gain_
              some { st with outputs :=
                st.outputs.set o (some (accumulate gain samples_count in_buffer out_buffer)) }

/-- Embedding of `Dsp::process`, in the source's order: (1) refresh every
input port's buffer pointer; (2) refresh every output port's buffer pointer
and zero it; (3) run every matrix point, in container order.  `backendIn k`
(resp. `backendOut k`) is the buffer `jack_port_get_buffer` hands to input
(resp. output) port `k` for this block. -/
def Dsp.process (backendIn backendOut : Nat → Buf) (nframes : Nat) (st : Dsp) : Option Dsp :=
  let st1 : Dsp :=
    { st with inputs := (List.range st.inputs.length).map (fun k =>
        Port.updateBufferAddress (backendIn k)) }
  let st2 : Dsp :=
    { st1 with outputs := (List.range st.outputs.length).map (fun k =>
        some (OutputPort.resetBuffer nframes (backendOut k))) }
  st2.matrix_points.foldlM (MatrixPoint.process nframes) st2

/-- Sample `i` of output slot `o` (default `0` outside any buffer). -/
def outSample (outs : List (Option Buf)) (o i : Nat) : ℚ :=
  ((outs.getD o none).getD []).getD i 0

/-- Sample `i` of the input buffer referenced by point `pt`. -/
def inSample (ins : List (Option Buf)) (pt : MatrixPoint) (i : Nat) : ℚ :=
  ((ins.getD (pt.input_.getD 0) none).getD []).getD i 0

/-- Total contribution of the points `ps` to sample `i` of output `o`:
the sum over all points targeting `o` of `gain * input[i]`. -/
def contrib (ins : List (Option Buf)) (ps : List MatrixPoint) (o i : Nat) : ℚ :=
  (ps.map (fun pt => if pt.output_ = some o then pt.gain_ * inSample ins pt i else 0)).sum

/-- A matrix point whose port references are non-null, in range of the
owning containers, and whose input port has a refreshed (non-null) buffer. -/
def validPoint (st : Dsp) (pt : MatrixPoint) : Prop :=
  pt.input_.isSome = true ∧ pt.output_.isSome = true ∧
  (st.inputs.getD (pt.input_.getD 0) none).isSome = true ∧
  pt.output_.getD 0 < st.outputs.length

instance (st : Dsp) (pt : MatrixPoint) : Decidable (validPoint st pt) := by
  unfold validPoint
  infer_instance

/-- The graph invariant assumed by the real-time path: every matrix point's
port references are non-null and in range of the owning containers. -/
def validTopology (st : Dsp) : Prop :=
  ∀ pt ∈ st.matrix_points, pt.input_.isSome = true ∧ pt.output_.isSome = true ∧
    pt.input_.getD 0 < st.inputs.length ∧ pt.output_.getD 0 < st.outputs.length

instance (st : Dsp) : Decidable (validTopology st) := by
  unfold validTopology
  infer_instance

/-- The refreshed state reached by `Dsp::process` after phase (1) (input
refresh) and phase (2) (output refresh + zero), before any point runs. -/
def refreshed (backendIn backendOut : Nat → Buf) (nframes : Nat) (st : Dsp) : Dsp :=
  { st with
    inputs := (List.range st.inputs.length).map (fun k =>
      Port.updateBufferAddress (backendIn k)),
    outputs := (List.range st.outputs.length).map (fun k =>
      some (OutputPort.resetBuffer nframes (backendOut k))) }

/-! ### Control-path model: usage counters and node lifecycle

`Dsp` owns `inputs`, `outputs` and `matrix_points` through raw pointers; the
usage counters of `CountUsers` gate destruction.  The state below models the
control-path view: each port slot is `some c` (a live port whose
`users_count_` is `c`) or `none` (no port at that id; ids are stable, like
the C++ object addresses).  `inPins`/`outPins` are ghost fields counting the
outstanding external pins per port (`Dsp::refAll` pins every element,
`Dsp::unrefAll` unpins; the ghost records how many such pins are held so
that the counter invariant can be stated). -/
structure Graph where
  ins : List (Option Nat)
  outs : List (Option Nat)
  inPins : List Nat
  outPins : List Nat
  nodes : List MatrixPoint
deriving DecidableEq

/-- Control-path operations: port creation/destruction, `MatrixPoint`
construction (connect), copy construction, move construction, destruction
(disconnect), and the per-element pin/unpin performed by
`Dsp::refAll`/`Dsp::unrefAll`. -/
inductive Op where
  | addInput : Op
  | addOutput : Op
  | removeInput : Nat → Op
  | removeOutput : Nat → Op
  | connect : Nat → Nat → ℚ → Op
  | copy : Nat → Op
  | move : Nat → Op
  | disconnect : Nat → Op
  | pinInput : Nat → Op
  | unpinInput : Nat → Op
  | pinOutput : Nat → Op
  | unpinOutput : Nat → Op
deriving DecidableEq

/-- Embedding of `if (ptr) ptr->decrementUsers();` from `~MatrixPoint` on a
port slot table: a null reference decrements nothing; a dangling reference
(no such port) or an underflowing decrement is a contract violation. -/
def decPort (slots : List (Option Nat)) : Option Nat → Option (List (Option Nat))
  | none => some slots
  | some p =>
    match slots.getD p none with
    | none => none
    | some c =>
      match CountUsers.decrementUsers c with
      | none => none
      | some c2 => some (slots.set p (some c2))

/-- Modelled from the spec: `removeInput`/`removeOutput` are absent from the
source (`Dsp` only declares the raw-pointer containers); spec section 4.3
states removal "fails with a contract violation (or is rejected) if the
handle's usage count is non-zero", i.e. while `hasUsers()` holds, and
otherwise destroys the port.  Rejection is modelled as `none` (no state
change: the port remains). -/
def removePort (slots : List (Option Nat)) (p : Nat) : Option (List (Option Nat)) :=
  match slots.getD p none with
  | none => none
  | some c => if CountUsers.hasUsers c then none else some (slots.set p none)

/-- One control-path operation.  `connect` embeds the `MatrixPoint`
constructor (lines 84-87: increment both referenced ports), `copy` the copy
constructor (88-91), `move` the move constructor (92-95: steal the
references, null out the source, counters untouched), `disconnect` the
destructor (96-99: conditionally decrement), the pin and unpin operations
the per-element work of `refAll`/`unrefAll`
(147-165); `addInput`/`addOutput` embed `InputPort`/`OutputPort`
construction (fresh counter `0`), and `removeInput`/`removeOutput` are the
spec-modelled removal above. -/
def Graph.step (st : Graph) : Op → Option Graph
  | Op.addInput =>
      some { st with ins := st.ins ++ [some 0], inPins := st.inPins ++ [0] }
  | Op.addOutput =>
      some { st with outs := st.outs ++ [some 0], outPins := st.outPins ++ [0] }
  | Op.removeInput p =>
      match removePort st.ins p with
      | none => none
      | some ins2 => some { st with ins := ins2 }
  | Op.removeOutput p =>
      match removePort st.outs p with
      | none => none
      | some outs2 => some { st with outs := outs2 }
  | Op.connect i o g =>
      match st.ins.getD i none, st.outs.getD o none with
      | some ci, some co =>
          some { st with
            ins := st.ins.set i (some (CountUsers.incrementUsers ci)),
            outs := st.outs.set o (some (CountUsers.incrementUsers co)),
            nodes := st.nodes ++ [MatrixPoint.mk (some i) (some o) g] }
      | _, _ => none
  | Op.copy k =>
      match st.nodes[k]? with
      | none => none
      | some nd =>
        match nd.input_, nd.output_ with
        | some i, some o =>
          match st.ins.getD i none, st.outs.getD o none with
          | some ci, some co =>
              some { st with
                ins := st.ins.set i (some (CountUsers.incrementUsers ci)),
                outs := st.outs.set o (some (CountUsers.incrementUsers co)),
                nodes := st.nodes ++ [nd] }
          | _, _ => none
        | _, _ => none
  | Op.move k =>
      match st.nodes[k]? with
      | none => none
      | some nd =>
          some { st with nodes :=
            (st.nodes.set k (MatrixPoint.mk none none nd.gain_)) ++ [nd] }
  | Op.disconnect k =>
      match st.nodes[k]? with
      | none => none
      | some nd =>
        match decPort st.ins nd.input_ with
        | none => none
        | some ins2 =>
          match decPort st.outs nd.output_ with
          | none => none
          | some outs2 =>
              some { st with ins := ins2, outs := outs2, nodes := st.nodes.eraseIdx k }
  | Op.pinInput p =>
      match st.ins.getD p none with
      | none => none
      | some c =>
          some { st with
            ins := st.ins.set p (some (CountUsers.incrementUsers c)),
            inPins := st.inPins.set p (st.inPins.getD p 0 + 1) }
  | Op.unpinInput p =>
      match st.ins.getD p none with
      | none => none
      | some c =>
        match CountUsers.decrementUsers c with
        | none => none
        | some c2 =>
          match st.inPins.getD p 0 with
          | 0 => none
          | q+1 => some { st with ins := st.ins.set p (some c2), inPins := st.inPins.set p q }
  | Op.pinOutput p =>
      match st.outs.getD p none with
      | none => none
      | some c =>
          some { st with
            outs := st.outs.set p (some (CountUsers.incrementUsers c)),
            outPins := st.outPins.set p (st.outPins.getD p 0 + 1) }
  | Op.unpinOutput p =>
      match st.outs.getD p none with
      | none => none
      | some c =>
        match CountUsers.decrementUsers c with
        | none => none
        | some c2 =>
          match st.outPins.getD p 0 with
          | 0 => none
          | q+1 => some { st with outs := st.outs.set p (some c2), outPins := st.outPins.set p q }

/-- The empty graph: no ports, no nodes, no pins. -/
def Graph.init : Graph :=
  Graph.mk [] [] [] [] []

/-- Run a sequence of control-path operations from the empty graph; `none`
as soon as one operation hits a contract violation. -/
def Graph.run (ops : List Op) : Option Graph :=
  ops.foldlM Graph.step Graph.init

/-- Number of live matrix points whose input reference is port `p`. -/
def refsIn (nodes : List MatrixPoint) (p : Nat) : Nat :=
  nodes.countP (fun nd => nd.input_ == some p)

/-- Number of live matrix points whose output reference is port `p`. -/
def refsOut (nodes : List MatrixPoint) (p : Nat) : Nat :=
  nodes.countP (fun nd => nd.output_ == some p)

/-- The usage-count invariant: every live port's counter equals its ghost
pin count plus the number of live matrix points referencing it, and every
reference held by a live matrix point is to a live port. -/
structure Inv (st : Graph) : Prop where
  hlenIn : st.inPins.length = st.ins.length
  hlenOut : st.outPins.length = st.outs.length
  hin : ∀ p c, st.ins.getD p none = some c → c = st.inPins.getD p 0 + refsIn st.nodes p
  hout : ∀ p c, st.outs.getD p none = some c → c = st.outPins.getD p 0 + refsOut st.nodes p
  haliveIn : ∀ nd ∈ st.nodes, ∀ i, nd.input_ = some i → (st.ins.getD i none).isSome = true
  haliveOut : ∀ nd ∈ st.nodes, ∀ o, nd.output_ = some o → (st.outs.getD o none).isSome = true

/-! ### List helper lemmas -/

theorem getD_set_self {α : Type*} (l : List α) (k : Nat) (x d : α) (hk : k < l.length) :
    (l.set k x).getD k d = x := by
  simp [List.getD_eq_getElem?_getD, List.getElem?_set, hk]

theorem getD_set_ne {α : Type*} (l : List α) (k j : Nat) (x d : α) (h : k ≠ j) :
    (l.set k x).getD j d = l.getD j d := by
  simp [List.getD_eq_getElem?_getD, List.getElem?_set, h]

theorem getD_some_of_lt {α : Type*} (l : List (Option α)) (k : Nat) (hk : k < l.length) :
    l[k]? = some (l.getD k none) := by
  rw [List.getElem?_eq_getElem hk, List.getD_eq_getElem _ _ hk]

theorem getD_eq_of_getElem? {α : Type*} {l : List (Option α)} {k : Nat} {x : Option α}
    (h : l[k]? = some x) : l.getD k none = x := by
  rw [List.getD_eq_getElem?_getD, h]
  rfl

/-! ### Characterization of the accumulation loop -/

theorem accumulate_length (gain : ℚ) (n : Nat) (inb outb : Buf) :
    (accumulate gain n inb outb).length = outb.length := by
  simp [accumulate]

theorem accumulate_getD (gain : ℚ) (n : Nat) (inb outb : Buf) (i : Nat)
    (hi : i < outb.length) :
    (accumulate gain n inb outb).getD i 0 =
      if i < n then outb.getD i 0 + gain * inb.getD i 0 else outb.getD i 0 := by
  unfold accumulate
  rw [List.getD_eq_getElem?_getD, List.getElem?_map, List.getElem?_range hi]
  rfl

theorem validPoint_elim {st : Dsp} {pt : MatrixPoint} (h : validPoint st pt) :
    ∃ i o bIn, pt.input_ = some i ∧ pt.output_ = some o ∧
      st.inputs[i]? = some (some bIn) ∧ o < st.outputs.length := by
  obtain ⟨h1, h2, h3, h4⟩ := h
  cases hpt : pt.input_ with
  | none => rw [hpt] at h1; cases h1
  | some i =>
    cases hqt : pt.output_ with
    | none => rw [hqt] at h2; cases h2
    | some o =>
      rw [hpt] at h3
      rw [hqt] at h4
      simp only [Option.getD_some] at h3 h4
      cases hsl : st.inputs[i]? with
      | none =>
        rw [List.getD_eq_getElem?_getD, hsl] at h3
        cases h3
      | some slot =>
        cases slot with
        | none =>
          rw [List.getD_eq_getElem?_getD, hsl] at h3
          cases h3
        | some bIn => exact ⟨i, o, bIn, rfl, rfl, hsl, h4⟩

theorem validPoint_mono {st st' : Dsp} (hin : st'.inputs = st.inputs)
    (hlen : st'.outputs.length = st.outputs.length) {pt : MatrixPoint}
    (h : validPoint st pt) : validPoint st' pt := by
  unfold validPoint at h ⊢
  rw [hin, hlen]
  exact h

theorem contrib_cons (ins : List (Option Buf)) (pt : MatrixPoint) (ps : List MatrixPoint)
    (o i : Nat) :
    contrib ins (pt :: ps) o i =
      (if pt.output_ = some o then pt.gain_ * inSample ins pt i else 0) + contrib ins ps o i := by
  simp [contrib]

theorem MatrixPoint.process_eq (n : Nat) (st : Dsp) (pt : MatrixPoint)
    (i o : Nat) (bIn bOut : Buf)
    (h1 : pt.input_ = some i) (h2 : pt.output_ = some o)
    (h3 : st.inputs[i]? = some (some bIn)) (h4 : st.outputs[o]? = some (some bOut)) :
    MatrixPoint.process n st pt =
      some { st with outputs := st.outputs.set o (some (accumulate pt.gain_ n bIn bOut)) } := by
  simp [MatrixPoint.process, h1, h2, h3, h4, Port.buffer]

/-- Running the matrix points in container order over a state whose input
slots (for the referenced ports) and output slots are all refreshed:
the fold succeeds, the inputs are untouched, an output targeted by no point
is untouched, and every targeted output accumulates the sum of the points'
contributions on top of its previous contents. -/
theorem processPoints_spec (n : Nat) (ps : List MatrixPoint) :
    ∀ st : Dsp,
      (∀ pt ∈ ps, validPoint st pt) →
      (∀ k, k < st.outputs.length → ∃ b, st.outputs.getD k none = some b ∧ n ≤ b.length) →
      ∃ st', ps.foldlM (MatrixPoint.process n) st = some st' ∧
        st'.inputs = st.inputs ∧
        st'.outputs.length = st.outputs.length ∧
        (∀ o, o < st.outputs.length → (∀ pt ∈ ps, pt.output_ ≠ some o) →
          st'.outputs.getD o none = st.outputs.getD o none) ∧
        (∀ o i, o < st.outputs.length → i < n →
          outSample st'.outputs o i = outSample st.outputs o i + contrib st.inputs ps o i) := by
  induction ps with
  | nil =>
    intro st _ _
    refine ⟨st, by simp [List.foldlM_nil], rfl, rfl, fun o _ _ => rfl, fun o i _ _ => ?_⟩
    simp [contrib]
  | cons pt ps ih =>
    intro st hv hout
    obtain ⟨i, o, bIn, h1, h2, h3, ho⟩ := validPoint_elim (hv pt (by simp))
    obtain ⟨bOut, hslot, hblen⟩ := hout o ho
    have h4 : st.outputs[o]? = some (some bOut) := by
      rw [getD_some_of_lt st.outputs o ho, hslot]
    have hstep := MatrixPoint.process_eq n st pt i o bIn bOut h1 h2 h3 h4
    set st1 : Dsp :=
      { st with outputs := st.outputs.set o (some (accumulate pt.gain_ n bIn bOut)) } with hst1
    have hin1 : st1.inputs = st.inputs := rfl
    have hlen1 : st1.outputs.length = st.outputs.length := by
      simp [hst1, List.length_set]
    have hv1 : ∀ q ∈ ps, validPoint st1 q := fun q hq =>
      validPoint_mono hin1 hlen1 (hv q (by simp [hq]))
    have hout1 : ∀ k, k < st1.outputs.length → ∃ b, st1.outputs.getD k none = some b ∧ n ≤ b.length := by
      intro k hk
      rw [hlen1] at hk
      by_cases hko : o = k
      · subst hko
        refine ⟨accumulate pt.gain_ n bIn bOut, ?_, ?_⟩
        · simp only [hst1]
          rw [getD_set_self _ _ _ _ ho]
        · rw [accumulate_length]
          exact hblen
      · obtain ⟨b, hb, hbl⟩ := hout k hk
        refine ⟨b, ?_, hbl⟩
        simp only [hst1]
        rw [getD_set_ne _ _ _ _ _ hko]
        exact hb
    obtain ⟨st', hfold, hin', hlen', hframe', hsum'⟩ := ih st1 hv1 hout1
    refine ⟨st', ?_, ?_, ?_, ?_, ?_⟩
    · rw [List.foldlM_cons, hstep]
      exact hfold
    · rw [hin', hin1]
    · rw [hlen', hlen1]
    · intro o' ho' hnone
      have hne : pt.output_ ≠ some o' := hnone pt (by simp)
      have hoo : o ≠ o' := fun he => hne (h2.trans (by rw [he]))
      rw [hframe' o' (by rw [hlen1]; exact ho') (fun q hq => hnone q (by simp [hq]))]
      simp only [hst1]
      exact getD_set_ne _ _ _ _ _ hoo
    · intro o' i' ho' hi'
      have hsum1 := hsum' o' i' (by rw [hlen1]; exact ho') hi'
      rw [hin1] at hsum1
      rw [hsum1, contrib_cons]
      by_cases hoo : o = o'
      · subst hoo
        have hout1o : outSample st1.outputs o i' =
            outSample st.outputs o i' + pt.gain_ * inSample st.inputs pt i' := by
          unfold outSample
          simp only [hst1]
          rw [getD_set_self _ _ _ _ ho, hslot]
          simp only [Option.getD_some]
          rw [accumulate_getD _ _ _ _ _ (lt_of_lt_of_le hi' hblen), if_pos hi']
          have : inSample st.inputs pt i' = bIn.getD i' 0 := by
            unfold inSample
            rw [h1]
            simp only [Option.getD_some]
            rw [getD_eq_of_getElem? h3]
            rfl
          rw [this]
        rw [hout1o, if_pos h2]
        ring
      · have hout1o : outSample st1.outputs o' i' = outSample st.outputs o' i' := by
          unfold outSample
          simp only [hst1]
          rw [getD_set_ne _ _ _ _ _ hoo]
        have hcond : ¬ pt.output_ = some o' := by
          rw [h2]
          intro he
          exact hoo (Option.some.inj he)
        rw [hout1o, if_neg hcond]
        ring

/-! ### Characterization of one whole block (`Dsp::process`) -/

theorem resetBuffer_length (n : Nat) (b : Buf) : n ≤ (OutputPort.resetBuffer n b).length := by
  unfold OutputPort.resetBuffer
  rw [List.length_append, List.length_replicate]
  exact Nat.le_add_right _ _

theorem resetBuffer_getD_lt (n : Nat) (b : Buf) (i : Nat) (hi : i < n) :
    (OutputPort.resetBuffer n b).getD i 0 = 0 := by
  unfold OutputPort.resetBuffer
  rw [List.getD_eq_getElem?_getD, List.getElem?_append]
  simp [List.length_replicate, hi, List.getElem?_replicate]

theorem resetBuffer_eq_replicate (n : Nat) (b : Buf) (hb : b.length = n) :
    OutputPort.resetBuffer n b = List.replicate n 0 := by
  unfold OutputPort.resetBuffer
  rw [← hb, List.drop_length, List.append_nil]

theorem process_point_inputs {n : Nat} {st st' : Dsp} {pt : MatrixPoint}
    (h : MatrixPoint.process n st pt = some st') : st'.inputs = st.inputs := by
  unfold MatrixPoint.process at h
  split at h <;> try exact Option.noConfusion h
  split at h <;> try exact Option.noConfusion h
  split at h <;> try exact Option.noConfusion h
  split at h <;> try exact Option.noConfusion h
  split at h <;> try exact Option.noConfusion h
  split at h <;> try exact Option.noConfusion h
  cases h
  rfl

theorem foldPoints_inputs (n : Nat) : ∀ (ps : List MatrixPoint) (st st' : Dsp),
    ps.foldlM (MatrixPoint.process n) st = some st' → st'.inputs = st.inputs := by
  intro ps
  induction ps with
  | nil =>
    intro st st' h
    rw [List.foldlM_nil] at h
    cases h
    rfl
  | cons pt ps ih =>
    intro st st' h
    rw [List.foldlM_cons] at h
    cases hp : MatrixPoint.process n st pt with
    | none =>
      rw [hp] at h
      exact Option.noConfusion h
    | some st1 =>
      rw [hp] at h
      rw [ih st1 st' h, process_point_inputs hp]

theorem Dsp.process_eq_fold (backendIn backendOut : Nat → Buf) (nframes : Nat) (st : Dsp) :
    Dsp.process backendIn backendOut nframes st =
      (refreshed backendIn backendOut nframes st).matrix_points.foldlM
        (MatrixPoint.process nframes) (refreshed backendIn backendOut nframes st) := by
  rfl

theorem refreshed_inputs_getElem? (bIn bOut : Nat → Buf) (n : Nat) (st : Dsp)
    (k : Nat) (hk : k < st.inputs.length) :
    (refreshed bIn bOut n st).inputs[k]? = some (some (bIn k)) := by
  unfold refreshed Port.updateBufferAddress
  simp only [List.getElem?_map, List.getElem?_range hk]
  rfl

theorem refreshed_outputs_getD (bIn bOut : Nat → Buf) (n : Nat) (st : Dsp)
    (k : Nat) (hk : k < st.outputs.length) :
    (refreshed bIn bOut n st).outputs.getD k none =
      some (OutputPort.resetBuffer n (bOut k)) := by
  unfold refreshed
  simp only [List.getD_eq_getElem?_getD, List.getElem?_map, List.getElem?_range hk]
  rfl

/-- Full characterization of `Dsp::process`: under the graph invariant it
succeeds, the input slots hold exactly the backend's buffers, an output
targeted by no point holds its freshly zeroed buffer, and every output
sample below `nframes` equals the sum over the matrix points targeting that
output of `gain * input[i]`. -/
theorem Dsp.process_spec (bIn bOut : Nat → Buf) (n : Nat) (st : Dsp)
    (hv : validTopology st) :
    ∃ st', Dsp.process bIn bOut n st = some st' ∧
      st'.inputs = (List.range st.inputs.length).map (fun k => some (bIn k)) ∧
      st'.outputs.length = st.outputs.length ∧
      (∀ o, o < st.outputs.length → (∀ pt ∈ st.matrix_points, pt.output_ ≠ some o) →
        st'.outputs.getD o none = some (OutputPort.resetBuffer n (bOut o))) ∧
      (∀ o i, o < st.outputs.length → i < n →
        outSample st'.outputs o i =
          (st.matrix_points.map (fun pt =>
            if pt.output_ = some o then pt.gain_ * (bIn (pt.input_.getD 0)).getD i 0
            else 0)).sum) := by
  set st2 := refreshed bIn bOut n st with hst2
  have hpts : st2.matrix_points = st.matrix_points := rfl
  have hlen2in : st2.inputs.length = st.inputs.length := by
    simp [hst2, refreshed]
  have hlen2out : st2.outputs.length = st.outputs.length := by
    simp [hst2, refreshed]
  have hv2 : ∀ pt ∈ st2.matrix_points, validPoint st2 pt := by
    intro pt hpt
    obtain ⟨hi, ho, hilt, holt⟩ := hv pt hpt
    refine ⟨hi, ho, ?_, ?_⟩
    · rw [getD_eq_of_getElem? (refreshed_inputs_getElem? bIn bOut n st _ hilt)]
      rfl
    · rw [hlen2out]
      exact holt
  have hout2 : ∀ k, k < st2.outputs.length →
      ∃ b, st2.outputs.getD k none = some b ∧ n ≤ b.length := by
    intro k hk
    rw [hlen2out] at hk
    exact ⟨OutputPort.resetBuffer n (bOut k), refreshed_outputs_getD bIn bOut n st k hk,
      resetBuffer_length n (bOut k)⟩
  obtain ⟨st', hfold, hin', hlen', hframe', hsum'⟩ := processPoints_spec n st2.matrix_points st2 hv2 hout2
  refine ⟨st', ?_, ?_, ?_, ?_, ?_⟩
  · rw [Dsp.process_eq_fold, ← hst2]
    exact hfold
  · rw [hin']
    rfl
  · rw [hlen', hlen2out]
  · intro o ho hnone
    rw [hframe' o (by rw [hlen2out]; exact ho) (by rw [hpts]; exact hnone)]
    exact refreshed_outputs_getD bIn bOut n st o ho
  · intro o i ho hi
    rw [hsum' o i (by rw [hlen2out]; exact ho) hi, hpts]
    have hzero : outSample st2.outputs o i = 0 := by
      unfold outSample
      rw [refreshed_outputs_getD bIn bOut n st o ho]
      simp only [Option.getD_some]
      exact resetBuffer_getD_lt n (bOut o) i hi
    rw [hzero, zero_add]
    unfold contrib
    congr 1
    apply List.map_congr_left
    intro pt hpt
    obtain ⟨hpi, hpo, hilt, holt⟩ := hv pt hpt
    have : inSample st2.inputs pt i = (bIn (pt.input_.getD 0)).getD i 0 := by
      unfold inSample
      rw [getD_eq_of_getElem? (refreshed_inputs_getElem? bIn bOut n st _ hilt)]
      rfl
    rw [this]

/-! ### Counting lemmas for the usage-count invariant -/

theorem getD_append_left {α : Type*} (l l2 : List α) (j : Nat) (d : α) (hj : j < l.length) :
    (l ++ l2).getD j d = l.getD j d := by
  rw [List.getD_eq_getElem?_getD, List.getD_eq_getElem?_getD, List.getElem?_append, if_pos hj]

theorem getD_append_self {α : Type*} (l : List α) (x d : α) :
    (l ++ [x]).getD l.length d = x := by
  rw [List.getD_eq_getElem?_getD, List.getElem?_concat_length]
  rfl

theorem lt_length_of_getD_some {α : Type*} {l : List (Option α)} {p : Nat} {x : α}
    (h : l.getD p none = some x) : p < l.length := by
  by_contra hc
  rw [List.getD_eq_default _ _ (le_of_not_lt hc)] at h
  cases h

theorem countP_set_of_getElem? {α : Type*} (p : α → Bool) (l : List α) (k : Nat) (x y : α)
    (hk : l[k]? = some y) :
    (l.set k x).countP p + (if p y then 1 else 0) = l.countP p + (if p x then 1 else 0) := by
  induction l generalizing k with
  | nil => cases hk
  | cons a l ih =>
    cases k with
    | zero =>
      rw [List.getElem?_cons_zero] at hk
      cases hk
      simp only [List.set_cons_zero, List.countP_cons]
      omega
    | succ k =>
      rw [List.getElem?_cons_succ] at hk
      have := ih k hk
      simp only [List.set_cons_succ, List.countP_cons]
      omega

theorem countP_eraseIdx_of_getElem? {α : Type*} (p : α → Bool) (l : List α) (k : Nat) (y : α)
    (hk : l[k]? = some y) :
    (l.eraseIdx k).countP p + (if p y then 1 else 0) = l.countP p := by
  induction l generalizing k with
  | nil => cases hk
  | cons a l ih =>
    cases k with
    | zero =>
      rw [List.getElem?_cons_zero] at hk
      cases hk
      simp only [List.eraseIdx_cons_zero, List.countP_cons]
    | succ k =>
      rw [List.getElem?_cons_succ] at hk
      have := ih k hk
      simp only [List.eraseIdx_cons_succ, List.countP_cons]
      omega

theorem refsIn_append (nodes : List MatrixPoint) (nd : MatrixPoint) (p : Nat) :
    refsIn (nodes ++ [nd]) p = refsIn nodes p + (if nd.input_ = some p then 1 else 0) := by
  unfold refsIn
  rw [List.countP_append]
  simp [List.countP_cons]

theorem refsOut_append (nodes : List MatrixPoint) (nd : MatrixPoint) (p : Nat) :
    refsOut (nodes ++ [nd]) p = refsOut nodes p + (if nd.output_ = some p then 1 else 0) := by
  unfold refsOut
  rw [List.countP_append]
  simp [List.countP_cons]

theorem refsIn_set (nodes : List MatrixPoint) (k : Nat) (x nd : MatrixPoint) (p : Nat)
    (hk : nodes[k]? = some nd) :
    refsIn (nodes.set k x) p + (if nd.input_ = some p then 1 else 0) =
      refsIn nodes p + (if x.input_ = some p then 1 else 0) := by
  unfold refsIn
  have := countP_set_of_getElem? (fun q => q.input_ == some p) nodes k x nd hk
  simpa using this

theorem refsOut_set (nodes : List MatrixPoint) (k : Nat) (x nd : MatrixPoint) (p : Nat)
    (hk : nodes[k]? = some nd) :
    refsOut (nodes.set k x) p + (if nd.output_ = some p then 1 else 0) =
      refsOut nodes p + (if x.output_ = some p then 1 else 0) := by
  unfold refsOut
  have := countP_set_of_getElem? (fun q => q.output_ == some p) nodes k x nd hk
  simpa using this

theorem refsIn_eraseIdx (nodes : List MatrixPoint) (k : Nat) (nd : MatrixPoint) (p : Nat)
    (hk : nodes[k]? = some nd) :
    refsIn (nodes.eraseIdx k) p + (if nd.input_ = some p then 1 else 0) = refsIn nodes p := by
  unfold refsIn
  have := countP_eraseIdx_of_getElem? (fun q => q.input_ == some p) nodes k nd hk
  simpa using this

theorem refsOut_eraseIdx (nodes : List MatrixPoint) (k : Nat) (nd : MatrixPoint) (p : Nat)
    (hk : nodes[k]? = some nd) :
    refsOut (nodes.eraseIdx k) p + (if nd.output_ = some p then 1 else 0) = refsOut nodes p := by
  unfold refsOut
  have := countP_eraseIdx_of_getElem? (fun q => q.output_ == some p) nodes k nd hk
  simpa using this

theorem refsIn_eq_zero {nodes : List MatrixPoint} {p : Nat}
    (h : ∀ nd ∈ nodes, nd.input_ ≠ some p) : refsIn nodes p = 0 := by
  unfold refsIn
  rw [List.countP_eq_zero]
  intro nd hnd
  simp [h nd hnd]

theorem refsOut_eq_zero {nodes : List MatrixPoint} {p : Nat}
    (h : ∀ nd ∈ nodes, nd.output_ ≠ some p) : refsOut nodes p = 0 := by
  unfold refsOut
  rw [List.countP_eq_zero]
  intro nd hnd
  simp [h nd hnd]

theorem not_ref_of_refsIn_zero {nodes : List MatrixPoint} {p : Nat}
    (h : refsIn nodes p = 0) : ∀ nd ∈ nodes, nd.input_ ≠ some p := by
  unfold refsIn at h
  rw [List.countP_eq_zero] at h
  intro nd hnd he
  exact h nd hnd (by simp [he])

theorem not_ref_of_refsOut_zero {nodes : List MatrixPoint} {p : Nat}
    (h : refsOut nodes p = 0) : ∀ nd ∈ nodes, nd.output_ ≠ some p := by
  unfold refsOut at h
  rw [List.countP_eq_zero] at h
  intro nd hnd he
  exact h nd hnd (by simp [he])

theorem getD_isSome_set {α : Type*} (l : List (Option α)) (q k : Nat) (v : α)
    (hq : (l.getD q none).isSome = true) (hk : k < l.length) :
    ((l.set k (some v)).getD q none).isSome = true := by
  by_cases hkq : k = q
  · subst hkq
    rw [getD_set_self _ _ _ _ hk]
    rfl
  · rw [getD_set_ne _ _ _ _ _ hkq]
    exact hq

theorem getD_isSome_append {α : Type*} (l l2 : List (Option α)) (q : Nat)
    (hq : (l.getD q none).isSome = true) : ((l ++ l2).getD q none).isSome = true := by
  obtain ⟨x, hx⟩ := Option.isSome_iff_exists.mp hq
  rw [getD_append_left _ _ _ _ (lt_length_of_getD_some hx)]
  exact hq

/-! ### Generic counter-equation preservation lemmas -/

theorem counterEq_inc {slots : List (Option Nat)} {pins : List Nat} {refs refs2 : Nat → Nat}
    {p c : Nat}
    (hold : ∀ q c2, slots.getD q none = some c2 → c2 = pins.getD q 0 + refs q)
    (hc : slots.getD p none = some c)
    (hrefs : ∀ q, refs2 q = refs q + (if q = p then 1 else 0)) :
    ∀ q c2, (slots.set p (some (c + 1))).getD q none = some c2 →
      c2 = pins.getD q 0 + refs2 q := by
  intro q c2 hq
  by_cases hpq : p = q
  · subst hpq
    rw [getD_set_self _ _ _ _ (lt_length_of_getD_some hc)] at hq
    cases hq
    have h1 := hold p c hc
    have h2 := hrefs p
    rw [if_pos rfl] at h2
    omega
  · rw [getD_set_ne _ _ _ _ _ hpq] at hq
    have h1 := hold q c2 hq
    have h2 := hrefs q
    rw [if_neg (fun he => hpq he.symm)] at h2
    omega

theorem counterEq_dec {slots : List (Option Nat)} {pins : List Nat} {refs refs2 : Nat → Nat}
    {p c : Nat}
    (hold : ∀ q c2, slots.getD q none = some c2 → c2 = pins.getD q 0 + refs q)
    (hc : slots.getD p none = some c)
    (hrefs : ∀ q, refs2 q + (if q = p then 1 else 0) = refs q) :
    ∀ q c2, (slots.set p (some (c - 1))).getD q none = some c2 →
      c2 = pins.getD q 0 + refs2 q := by
  intro q c2 hq
  by_cases hpq : p = q
  · subst hpq
    rw [getD_set_self _ _ _ _ (lt_length_of_getD_some hc)] at hq
    cases hq
    have h1 := hold p c hc
    have h2 := hrefs p
    rw [if_pos rfl] at h2
    omega
  · rw [getD_set_ne _ _ _ _ _ hpq] at hq
    have h1 := hold q c2 hq
    have h2 := hrefs q
    rw [if_neg (fun he => hpq he.symm)] at h2
    omega

theorem counterEq_remove {slots : List (Option Nat)} {pins : List Nat} {refs : Nat → Nat}
    (hold : ∀ q c2, slots.getD q none = some c2 → c2 = pins.getD q 0 + refs q) (p : Nat) :
    ∀ q c2, (slots.set p none).getD q none = some c2 → c2 = pins.getD q 0 + refs q := by
  intro q c2 hq
  by_cases hpq : p = q
  · subst hpq
    by_cases hlt : p < slots.length
    · rw [getD_set_self _ _ _ _ hlt] at hq
      cases hq
    · rw [List.getD_eq_default _ _ (by rw [List.length_set]; exact le_of_not_lt hlt)] at hq
      cases hq
  · rw [getD_set_ne _ _ _ _ _ hpq] at hq
    exact hold q c2 hq

theorem counterEq_pin {slots : List (Option Nat)} {pins : List Nat} {refs : Nat → Nat}
    {p c : Nat}
    (hlen : pins.length = slots.length)
    (hold : ∀ q c2, slots.getD q none = some c2 → c2 = pins.getD q 0 + refs q)
    (hc : slots.getD p none = some c) :
    ∀ q c2, (slots.set p (some (c + 1))).getD q none = some c2 →
      c2 = (pins.set p (pins.getD p 0 + 1)).getD q 0 + refs q := by
  intro q c2 hq
  by_cases hpq : p = q
  · subst hpq
    rw [getD_set_self _ _ _ _ (lt_length_of_getD_some hc)] at hq
    cases hq
    rw [getD_set_self _ _ _ _ (by rw [hlen]; exact lt_length_of_getD_some hc)]
    have := hold p c hc
    omega
  · rw [getD_set_ne _ _ _ _ _ hpq] at hq
    rw [getD_set_ne _ _ _ _ _ hpq]
    exact hold q c2 hq

theorem counterEq_unpin {slots : List (Option Nat)} {pins : List Nat} {refs : Nat → Nat}
    {p c q0 : Nat}
    (hlen : pins.length = slots.length)
    (hold : ∀ q c2, slots.getD q none = some c2 → c2 = pins.getD q 0 + refs q)
    (hc : slots.getD p none = some c)
    (hpin : pins.getD p 0 = q0 + 1) :
    ∀ q c2, (slots.set p (some (c - 1))).getD q none = some c2 →
      c2 = (pins.set p q0).getD q 0 + refs q := by
  intro q c2 hq
  by_cases hpq : p = q
  · subst hpq
    rw [getD_set_self _ _ _ _ (lt_length_of_getD_some hc)] at hq
    cases hq
    rw [getD_set_self _ _ _ _ (by rw [hlen]; exact lt_length_of_getD_some hc)]
    have := hold p c hc
    omega
  · rw [getD_set_ne _ _ _ _ _ hpq] at hq
    rw [getD_set_ne _ _ _ _ _ hpq]
    exact hold q c2 hq

theorem counterEq_append {slots : List (Option Nat)} {pins : List Nat} {refs : Nat → Nat}
    (hlen : pins.length = slots.length)
    (hold : ∀ q c2, slots.getD q none = some c2 → c2 = pins.getD q 0 + refs q)
    (hfresh : refs slots.length = 0) :
    ∀ q c2, (slots ++ [some 0]).getD q none = some c2 →
      c2 = (pins ++ [0]).getD q 0 + refs q := by
  intro q c2 hq
  rcases Nat.lt_trichotomy q slots.length with hlt | heq | hgt
  · rw [getD_append_left _ _ _ _ hlt] at hq
    rw [getD_append_left _ _ _ _ (by rw [hlen]; exact hlt)]
    exact hold q c2 hq
  · subst heq
    rw [getD_append_self] at hq
    cases hq
    have hp : (pins ++ [0]).getD slots.length 0 = 0 := by
      rw [← hlen]
      exact getD_append_self _ _ _
    rw [hp, hfresh]
  · rw [List.getD_eq_default _ _ (by simp; omega)] at hq
    cases hq

theorem mem_of_getElem? {α : Type*} {l : List α} {k : Nat} {a : α}
    (h : l[k]? = some a) : a ∈ l := by
  obtain ⟨hlt, he⟩ := List.getElem?_eq_some.mp h
  exact he ▸ List.getElem_mem hlt

theorem ite_some_eq (p q : Nat) :
    (if (some p : Option Nat) = some q then (1 : Nat) else 0) = if q = p then 1 else 0 := by
  by_cases h : p = q
  · subst h
    simp
  · rw [if_neg (by simpa using h), if_neg (fun he => h he.symm)]

/-! ### Per-operation preservation of the usage-count invariant -/

theorem Inv.step_addInput {st st2 : Graph} (hI : Inv st)
    (h : Graph.step st Op.addInput = some st2) : Inv st2 := by
  simp only [Graph.step] at h
  cases h
  have hfresh : refsIn st.nodes st.ins.length = 0 := by
    apply refsIn_eq_zero
    intro nd hnd he
    have := hI.haliveIn nd hnd _ he
    rw [List.getD_eq_default _ _ (le_refl _)] at this
    cases this
  refine ⟨?_, hI.hlenOut, ?_, hI.hout, ?_, hI.haliveOut⟩
  · simp [hI.hlenIn]
  · exact counterEq_append hI.hlenIn hI.hin hfresh
  · intro nd hnd i hi
    exact getD_isSome_append _ _ _ (hI.haliveIn nd hnd i hi)

theorem Inv.step_addOutput {st st2 : Graph} (hI : Inv st)
    (h : Graph.step st Op.addOutput = some st2) : Inv st2 := by
  simp only [Graph.step] at h
  cases h
  have hfresh : refsOut st.nodes st.outs.length = 0 := by
    apply refsOut_eq_zero
    intro nd hnd he
    have := hI.haliveOut nd hnd _ he
    rw [List.getD_eq_default _ _ (le_refl _)] at this
    cases this
  refine ⟨hI.hlenIn, ?_, hI.hin, ?_, hI.haliveIn, ?_⟩
  · simp [hI.hlenOut]
  · exact counterEq_append hI.hlenOut hI.hout hfresh
  · intro nd hnd o ho
    exact getD_isSome_append _ _ _ (hI.haliveOut nd hnd o ho)

theorem Inv.step_move {st st2 : Graph} {k : Nat} (hI : Inv st)
    (h : Graph.step st (Op.move k) = some st2) : Inv st2 := by
  simp only [Graph.step] at h
  split at h
  next => exact Option.noConfusion h
  next nd hnd =>
  cases h
  have hmem : nd ∈ st.nodes := mem_of_getElem? hnd
  have hrefsIn : ∀ q, refsIn ((st.nodes.set k (MatrixPoint.mk none none nd.gain_)) ++ [nd]) q =
      refsIn st.nodes q := by
    intro q
    have e1 := refsIn_append (st.nodes.set k (MatrixPoint.mk none none nd.gain_)) nd q
    have e2 := refsIn_set st.nodes k (MatrixPoint.mk none none nd.gain_) nd q hnd
    simp at e2
    omega
  have hrefsOut : ∀ q, refsOut ((st.nodes.set k (MatrixPoint.mk none none nd.gain_)) ++ [nd]) q =
      refsOut st.nodes q := by
    intro q
    have e1 := refsOut_append (st.nodes.set k (MatrixPoint.mk none none nd.gain_)) nd q
    have e2 := refsOut_set st.nodes k (MatrixPoint.mk none none nd.gain_) nd q hnd
    simp at e2
    omega
  refine ⟨hI.hlenIn, hI.hlenOut, ?_, ?_, ?_, ?_⟩
  · intro p c hp
    rw [hrefsIn p]
    exact hI.hin p c hp
  · intro p c hp
    rw [hrefsOut p]
    exact hI.hout p c hp
  · intro nd2 hnd2 i hi
    rcases List.mem_append.mp hnd2 with hmem2 | hmem2
    · rcases List.mem_or_eq_of_mem_set hmem2 with hmem3 | hmem3
      · exact hI.haliveIn nd2 hmem3 i hi
      · rw [hmem3] at hi
        cases hi
    · rw [List.mem_singleton.mp hmem2] at hi
      exact hI.haliveIn nd hmem i hi
  · intro nd2 hnd2 o ho
    rcases List.mem_append.mp hnd2 with hmem2 | hmem2
    · rcases List.mem_or_eq_of_mem_set hmem2 with hmem3 | hmem3
      · exact hI.haliveOut nd2 hmem3 o ho
      · rw [hmem3] at ho
        cases ho
    · rw [List.mem_singleton.mp hmem2] at ho
      exact hI.haliveOut nd hmem o ho

theorem Inv.step_connect {st st2 : Graph} {i o : Nat} {g : ℚ} (hI : Inv st)
    (h : Graph.step st (Op.connect i o g) = some st2) : Inv st2 := by
  simp only [Graph.step] at h
  split at h
  case _ ci co hci hco =>
    cases h
    have hilt := lt_length_of_getD_some hci
    have holt := lt_length_of_getD_some hco
    refine ⟨?_, ?_, ?_, ?_, ?_, ?_⟩
    · simp [hI.hlenIn]
    · simp [hI.hlenOut]
    · refine counterEq_inc hI.hin hci ?_
      intro q
      rw [refsIn_append]
      simp only [MatrixPoint.mk.injEq]
      rw [ite_some_eq]
    · refine counterEq_inc hI.hout hco ?_
      intro q
      rw [refsOut_append]
      rw [ite_some_eq]
    · intro nd hnd i2 hi2
      rcases List.mem_append.mp hnd with hmem | hmem
      · exact getD_isSome_set _ _ _ _ (hI.haliveIn nd hmem i2 hi2) hilt
      · rw [List.mem_singleton.mp hmem] at hi2
        cases hi2
        rw [getD_set_self _ _ _ _ hilt]
        rfl
    · intro nd hnd o2 ho2
      rcases List.mem_append.mp hnd with hmem | hmem
      · exact getD_isSome_set _ _ _ _ (hI.haliveOut nd hmem o2 ho2) holt
      · rw [List.mem_singleton.mp hmem] at ho2
        cases ho2
        rw [getD_set_self _ _ _ _ holt]
        rfl
  case _ =>
    exact Option.noConfusion h

theorem Inv.step_copy {st st2 : Graph} {k : Nat} (hI : Inv st)
    (h : Graph.step st (Op.copy k) = some st2) : Inv st2 := by
  simp only [Graph.step] at h
  split at h
  next => exact Option.noConfusion h
  next nd hnd =>
  split at h
  case _ i o hndi hndo =>
    split at h
    case _ ci co hci hco =>
      cases h
      have hilt := lt_length_of_getD_some hci
      have holt := lt_length_of_getD_some hco
      have hmem : nd ∈ st.nodes := mem_of_getElem? hnd
      refine ⟨?_, ?_, ?_, ?_, ?_, ?_⟩
      · simp [hI.hlenIn]
      · simp [hI.hlenOut]
      · refine counterEq_inc hI.hin hci ?_
        intro q
        rw [refsIn_append, hndi, ite_some_eq]
      · refine counterEq_inc hI.hout hco ?_
        intro q
        rw [refsOut_append, hndo, ite_some_eq]
      · intro nd2 hnd2 i2 hi2
        rcases List.mem_append.mp hnd2 with hmem2 | hmem2
        · exact getD_isSome_set _ _ _ _ (hI.haliveIn nd2 hmem2 i2 hi2) hilt
        · rw [List.mem_singleton.mp hmem2] at hi2
          rw [hndi] at hi2
          cases hi2
          rw [getD_set_self _ _ _ _ hilt]
          rfl
      · intro nd2 hnd2 o2 ho2
        rcases List.mem_append.mp hnd2 with hmem2 | hmem2
        · exact getD_isSome_set _ _ _ _ (hI.haliveOut nd2 hmem2 o2 ho2) holt
        · rw [List.mem_singleton.mp hmem2] at ho2
          rw [hndo] at ho2
          cases ho2
          rw [getD_set_self _ _ _ _ holt]
          rfl
    case _ =>
      exact Option.noConfusion h
  case _ =>
    exact Option.noConfusion h

theorem decPort_spec {slots slots2 : List (Option Nat)} {ref : Option Nat}
    (h : decPort slots ref = some slots2) :
    (ref = none ∧ slots2 = slots) ∨
    (∃ p c, ref = some p ∧ slots.getD p none = some c ∧ c ≠ 0 ∧
      slots2 = slots.set p (some (c - 1))) := by
  cases ref with
  | none =>
    simp only [decPort] at h
    cases h
    exact Or.inl ⟨rfl, rfl⟩
  | some p =>
    simp only [decPort] at h
    split at h
    next => exact Option.noConfusion h
    next c hc =>
    split at h
    next => exact Option.noConfusion h
    next c2 hc2 =>
    cases h
    unfold CountUsers.decrementUsers at hc2
    by_cases h0 : c = 0
    · rw [if_pos h0] at hc2
      exact Option.noConfusion hc2
    · rw [if_neg h0] at hc2
      cases hc2
      exact Or.inr ⟨p, c, rfl, hc, h0, rfl⟩

theorem decPort_isSome {slots slots2 : List (Option Nat)} {ref : Option Nat}
    (h : decPort slots ref = some slots2) :
    ∀ q, (slots.getD q none).isSome = true → (slots2.getD q none).isSome = true := by
  rcases decPort_spec h with ⟨_, rfl⟩ | ⟨p, c, _, hc, _, rfl⟩
  · exact fun _ hq => hq
  · exact fun q hq => getD_isSome_set _ _ _ _ hq (lt_length_of_getD_some hc)

theorem decPort_length {slots slots2 : List (Option Nat)} {ref : Option Nat}
    (h : decPort slots ref = some slots2) : slots2.length = slots.length := by
  rcases decPort_spec h with ⟨_, rfl⟩ | ⟨p, c, _, _, _, rfl⟩
  · rfl
  · exact List.length_set _ _ _

theorem decPort_counterEq_in {slots slots2 : List (Option Nat)} {pins : List Nat}
    {nodes : List MatrixPoint} {k : Nat} {nd : MatrixPoint}
    (hnd : nodes[k]? = some nd)
    (hold : ∀ q c2, slots.getD q none = some c2 → c2 = pins.getD q 0 + refsIn nodes q)
    (h : decPort slots nd.input_ = some slots2) :
    ∀ q c2, slots2.getD q none = some c2 →
      c2 = pins.getD q 0 + refsIn (nodes.eraseIdx k) q := by
  rcases decPort_spec h with ⟨hrefnone, rfl⟩ | ⟨p, c, hrefp, hc, hc0, rfl⟩
  · intro q c2 hq
    have e := refsIn_eraseIdx nodes k nd q hnd
    rw [hrefnone] at e
    simp at e
    rw [e]
    exact hold q c2 hq
  · refine counterEq_dec hold hc ?_
    intro q
    have e := refsIn_eraseIdx nodes k nd q hnd
    rw [hrefp, ite_some_eq] at e
    exact e

theorem decPort_counterEq_out {slots slots2 : List (Option Nat)} {pins : List Nat}
    {nodes : List MatrixPoint} {k : Nat} {nd : MatrixPoint}
    (hnd : nodes[k]? = some nd)
    (hold : ∀ q c2, slots.getD q none = some c2 → c2 = pins.getD q 0 + refsOut nodes q)
    (h : decPort slots nd.output_ = some slots2) :
    ∀ q c2, slots2.getD q none = some c2 →
      c2 = pins.getD q 0 + refsOut (nodes.eraseIdx k) q := by
  rcases decPort_spec h with ⟨hrefnone, rfl⟩ | ⟨p, c, hrefp, hc, hc0, rfl⟩
  · intro q c2 hq
    have e := refsOut_eraseIdx nodes k nd q hnd
    rw [hrefnone] at e
    simp at e
    rw [e]
    exact hold q c2 hq
  · refine counterEq_dec hold hc ?_
    intro q
    have e := refsOut_eraseIdx nodes k nd q hnd
    rw [hrefp, ite_some_eq] at e
    exact e

theorem removePort_spec {slots slots2 : List (Option Nat)} {p : Nat}
    (h : removePort slots p = some slots2) :
    slots.getD p none = some 0 ∧ slots2 = slots.set p none := by
  unfold removePort at h
  split at h
  next => exact Option.noConfusion h
  next c hc =>
  by_cases h0 : c = 0
  · subst h0
    rw [if_neg (by decide)] at h
    cases h
    exact ⟨hc, rfl⟩
  · rw [if_pos (by simpa [CountUsers.hasUsers] using h0)] at h
    exact Option.noConfusion h

theorem Inv.step_disconnect {st st2 : Graph} {k : Nat} (hI : Inv st)
    (h : Graph.step st (Op.disconnect k) = some st2) : Inv st2 := by
  simp only [Graph.step] at h
  split at h
  next => exact Option.noConfusion h
  next nd hnd =>
  split at h
  next => exact Option.noConfusion h
  next ins2 hins2 =>
  split at h
  next => exact Option.noConfusion h
  next outs2 houts2 =>
  cases h
  refine ⟨?_, ?_, ?_, ?_, ?_, ?_⟩
  · rw [decPort_length hins2]
    exact hI.hlenIn
  · rw [decPort_length houts2]
    exact hI.hlenOut
  · exact decPort_counterEq_in hnd hI.hin hins2
  · exact decPort_counterEq_out hnd hI.hout houts2
  · intro nd2 hnd2 i hi
    exact decPort_isSome hins2 i
      (hI.haliveIn nd2 (List.Sublist.mem hnd2 (List.eraseIdx_sublist st.nodes k)) i hi)
  · intro nd2 hnd2 o ho
    exact decPort_isSome houts2 o
      (hI.haliveOut nd2 (List.Sublist.mem hnd2 (List.eraseIdx_sublist st.nodes k)) o ho)

theorem Inv.step_removeInput {st st2 : Graph} {p : Nat} (hI : Inv st)
    (h : Graph.step st (Op.removeInput p) = some st2) : Inv st2 := by
  simp only [Graph.step] at h
  split at h
  next => exact Option.noConfusion h
  next ins2 hins2 =>
  cases h
  obtain ⟨hc0, rfl⟩ := removePort_spec hins2
  have hrefs0 : refsIn st.nodes p = 0 := by
    have := hI.hin p 0 hc0
    omega
  refine ⟨?_, hI.hlenOut, ?_, hI.hout, ?_, hI.haliveOut⟩
  · rw [List.length_set]
    exact hI.hlenIn
  · exact counterEq_remove hI.hin p
  · intro nd hnd i hi
    by_cases hip : p = i
    · subst hip
      exact absurd hi (not_ref_of_refsIn_zero hrefs0 nd hnd)
    · rw [getD_set_ne _ _ _ _ _ hip]
      exact hI.haliveIn nd hnd i hi

theorem Inv.step_removeOutput {st st2 : Graph} {p : Nat} (hI : Inv st)
    (h : Graph.step st (Op.removeOutput p) = some st2) : Inv st2 := by
  simp only [Graph.step] at h
  split at h
  next => exact Option.noConfusion h
  next outs2 houts2 =>
  cases h
  obtain ⟨hc0, rfl⟩ := removePort_spec houts2
  have hrefs0 : refsOut st.nodes p = 0 := by
    have := hI.hout p 0 hc0
    omega
  refine ⟨hI.hlenIn, ?_, hI.hin, ?_, hI.haliveIn, ?_⟩
  · rw [List.length_set]
    exact hI.hlenOut
  · exact counterEq_remove hI.hout p
  · intro nd hnd o ho
    by_cases hop : p = o
    · subst hop
      exact absurd ho (not_ref_of_refsOut_zero hrefs0 nd hnd)
    · rw [getD_set_ne _ _ _ _ _ hop]
      exact hI.haliveOut nd hnd o ho

theorem Inv.step_pinInput {st st2 : Graph} {p : Nat} (hI : Inv st)
    (h : Graph.step st (Op.pinInput p) = some st2) : Inv st2 := by
  simp only [Graph.step] at h
  split at h
  next => exact Option.noConfusion h
  next c hc =>
  cases h
  have hlt := lt_length_of_getD_some hc
  refine ⟨?_, hI.hlenOut, ?_, hI.hout, ?_, hI.haliveOut⟩
  · simp [hI.hlenIn]
  · exact counterEq_pin hI.hlenIn hI.hin hc
  · intro nd hnd i hi
    exact getD_isSome_set _ _ _ _ (hI.haliveIn nd hnd i hi) hlt

theorem Inv.step_pinOutput {st st2 : Graph} {p : Nat} (hI : Inv st)
    (h : Graph.step st (Op.pinOutput p) = some st2) : Inv st2 := by
  simp only [Graph.step] at h
  split at h
  next => exact Option.noConfusion h
  next c hc =>
  cases h
  have hlt := lt_length_of_getD_some hc
  refine ⟨hI.hlenIn, ?_, hI.hin, ?_, hI.haliveIn, ?_⟩
  · simp [hI.hlenOut]
  · exact counterEq_pin hI.hlenOut hI.hout hc
  · intro nd hnd o ho
    exact getD_isSome_set _ _ _ _ (hI.haliveOut nd hnd o ho) hlt

theorem Inv.step_unpinInput {st st2 : Graph} {p : Nat} (hI : Inv st)
    (h : Graph.step st (Op.unpinInput p) = some st2) : Inv st2 := by
  simp only [Graph.step] at h
  split at h
  next => exact Option.noConfusion h
  next c hc =>
  split at h
  next => exact Option.noConfusion h
  next c2 hc2 =>
  split at h
  next => exact Option.noConfusion h
  next q0 hq0 =>
  cases h
  have hlt := lt_length_of_getD_some hc
  have hdec : c ≠ 0 ∧ c2 = c - 1 := by
    unfold CountUsers.decrementUsers at hc2
    by_cases h0 : c = 0
    · rw [if_pos h0] at hc2
      exact Option.noConfusion hc2
    · rw [if_neg h0] at hc2
      cases hc2
      exact ⟨h0, rfl⟩
  refine ⟨?_, hI.hlenOut, ?_, hI.hout, ?_, hI.haliveOut⟩
  · simp [hI.hlenIn]
  · rw [hdec.2]
    exact counterEq_unpin hI.hlenIn hI.hin hc hq0
  · intro nd hnd i hi
    exact getD_isSome_set _ _ _ _ (hI.haliveIn nd hnd i hi) hlt

theorem Inv.step_unpinOutput {st st2 : Graph} {p : Nat} (hI : Inv st)
    (h : Graph.step st (Op.unpinOutput p) = some st2) : Inv st2 := by
  simp only [Graph.step] at h
  split at h
  next => exact Option.noConfusion h
  next c hc =>
  split at h
  next => exact Option.noConfusion h
  next c2 hc2 =>
  split at h
  next => exact Option.noConfusion h
  next q0 hq0 =>
  cases h
  have hlt := lt_length_of_getD_some hc
  have hdec : c ≠ 0 ∧ c2 = c - 1 := by
    unfold CountUsers.decrementUsers at hc2
    by_cases h0 : c = 0
    · rw [if_pos h0] at hc2
      exact Option.noConfusion hc2
    · rw [if_neg h0] at hc2
      cases hc2
      exact ⟨h0, rfl⟩
  refine ⟨hI.hlenIn, ?_, hI.hin, ?_, hI.haliveIn, ?_⟩
  · simp [hI.hlenOut]
  · rw [hdec.2]
    exact counterEq_unpin hI.hlenOut hI.hout hc hq0
  · intro nd hnd o ho
    exact getD_isSome_set _ _ _ _ (hI.haliveOut nd hnd o ho) hlt

/-- Every control-path operation preserves the usage-count invariant. -/
theorem Graph.step_inv {st st2 : Graph} {op : Op} (hI : Inv st)
    (h : Graph.step st op = some st2) : Inv st2 := by
  cases op with
  | addInput => exact Inv.step_addInput hI h
  | addOutput => exact Inv.step_addOutput hI h
  | removeInput p => exact Inv.step_removeInput hI h
  | removeOutput p => exact Inv.step_removeOutput hI h
  | connect i o g => exact Inv.step_connect hI h
  | copy k => exact Inv.step_copy hI h
  | move k => exact Inv.step_move hI h
  | disconnect k => exact Inv.step_disconnect hI h
  | pinInput p => exact Inv.step_pinInput hI h
  | unpinInput p => exact Inv.step_unpinInput hI h
  | pinOutput p => exact Inv.step_pinOutput hI h
  | unpinOutput p => exact Inv.step_unpinOutput hI h

theorem Inv.empty : Inv Graph.init := by
  refine ⟨rfl, rfl, ?_, ?_, ?_, ?_⟩
  · intro p c hp
    rw [List.getD_eq_default _ _ (Nat.zero_le p)] at hp
    cases hp
  · intro p c hp
    rw [List.getD_eq_default _ _ (Nat.zero_le p)] at hp
    cases hp
  · intro nd hnd
    cases hnd
  · intro nd hnd
    cases hnd

theorem Graph.runAux_inv : ∀ (ops : List Op) (st0 st : Graph), Inv st0 →
    ops.foldlM Graph.step st0 = some st → Inv st := by
  intro ops
  induction ops with
  | nil =>
    intro st0 st h0 h
    rw [List.foldlM_nil] at h
    cases h
    exact h0
  | cons op ops ih =>
    intro st0 st h0 h
    rw [List.foldlM_cons] at h
    cases hs : Graph.step st0 op with
    | none =>
      rw [hs] at h
      exact Option.noConfusion h
    | some st1 =>
      rw [hs] at h
      exact ih st1 st (Graph.step_inv h0 hs) h

/-- Any state reachable from the empty graph satisfies the usage-count
invariant. -/
theorem Graph.run_inv (ops : List Op) (st : Graph) (h : Graph.run ops = some st) : Inv st :=
  Graph.runAux_inv ops Graph.init st Inv.empty h

theorem removePort_busy {slots : List (Option Nat)} {p c : Nat}
    (hc : slots.getD p none = some c) (hc0 : c ≠ 0) : removePort slots p = none := by
  simp only [removePort, hc]
  rw [if_pos (by simpa [CountUsers.hasUsers] using hc0)]

theorem removePort_free {slots : List (Option Nat)} {p : Nat}
    (hc : slots.getD p none = some 0) : removePort slots p = some (slots.set p none) := by
  simp only [removePort, hc]
  rw [if_neg (by decide)]

/-! ### The claims -/

/-- C1: after one call to `Dsp::process(blockSize)`, for every output port
`o` and every sample index `i < blockSize`, the output buffer at `i` equals
the sum over all matrix points targeting `o` of `gain_j * input_j[i]` (each
point accumulates `output[i] += gain * input[i]` into the zeroed buffer
rather than overwriting it, so all contributions are present). -/
theorem C1_process_mixes_sum (backendIn backendOut : Nat → Buf) (n : Nat) (st : Dsp)
    (hv : validTopology st)
    (hbIn : ∀ k, k < st.inputs.length → (backendIn k).length = n)
    (hbOut : ∀ k, k < st.outputs.length → (backendOut k).length = n) :
    ∃ st', Dsp.process backendIn backendOut n st = some st' ∧
      ∀ o i, o < st.outputs.length → i < n →
        outSample st'.outputs o i =
          (st.matrix_points.map (fun pt =>
            if pt.output_ = some o then pt.gain_ * (backendIn (pt.input_.getD 0)).getD i 0
            else 0)).sum := by
  obtain ⟨st', h1, _, _, _, h5⟩ := Dsp.process_spec backendIn backendOut n st hv
  exact ⟨st', h1, h5⟩

theorem C1_witness :
    ∃ st', Dsp.process (fun _ => [1, 1, 1, 1]) (fun _ => [9, 9, 9, 9]) 4
        (Dsp.mk [none] [none] [MatrixPoint.mk (some 0) (some 0) 2]) = some st' ∧
      ∀ o i, o < (Dsp.mk [none] [none] [MatrixPoint.mk (some 0) (some 0) 2]).outputs.length →
        i < 4 →
        outSample st'.outputs o i =
          ((Dsp.mk [none] [none] [MatrixPoint.mk (some 0) (some 0) 2]).matrix_points.map
            (fun pt => if pt.output_ = some o then
              pt.gain_ * ((fun _ => [1, 1, 1, 1]) (pt.input_.getD 0)).getD i 0 else 0)).sum :=
  C1_process_mixes_sum (fun _ => [1, 1, 1, 1]) (fun _ => [9, 9, 9, 9]) 4
    (Dsp.mk [none] [none] [MatrixPoint.mk (some 0) (some 0) 2])
    (by with_unfolding_all decide) (by with_unfolding_all decide) (by with_unfolding_all decide)

/-- C2: `Dsp::process` performs, in this order: refresh every input port
buffer, then refresh and zero every output port buffer, then run every
matrix point in container order (this is the structure of `Dsp.process`,
mirroring the source); consequently an output targeted by no matrix point
holds exactly the freshly zeroed buffer (pure silence) when `process`
returns. -/
theorem C2_unconnected_output_silent (backendIn backendOut : Nat → Buf) (n : Nat) (st : Dsp)
    (o : Nat) (hv : validTopology st) (ho : o < st.outputs.length)
    (hnone : ∀ pt ∈ st.matrix_points, pt.output_ ≠ some o)
    (hlen : (backendOut o).length = n) :
    ∃ st', Dsp.process backendIn backendOut n st = some st' ∧
      st'.outputs.getD o none = some (List.replicate n 0) := by
  obtain ⟨st', h1, _, _, h4, _⟩ := Dsp.process_spec backendIn backendOut n st hv
  refine ⟨st', h1, ?_⟩
  rw [h4 o ho hnone, resetBuffer_eq_replicate n (backendOut o) hlen]

theorem C2_witness :
    ∃ st', Dsp.process (fun _ => [1, 1]) (fun _ => [5, 5]) 2
        (Dsp.mk [none] [none, none] [MatrixPoint.mk (some 0) (some 1) 3]) = some st' ∧
      st'.outputs.getD 0 none = some (List.replicate 2 0) :=
  C2_unconnected_output_silent (fun _ => [1, 1]) (fun _ => [5, 5]) 2
    (Dsp.mk [none] [none, none] [MatrixPoint.mk (some 0) (some 1) 3]) 0
    (by with_unfolding_all decide) (by with_unfolding_all decide)
    (by with_unfolding_all decide) (by with_unfolding_all decide)

/-- C3: after any successful sequence of control-path operations (node
creation, destruction, copy, move, port add/remove, graph-wide
pin/unpin), every live port's usage counter equals the number of live
matrix points currently referencing it plus the outstanding graph-wide
pins on it: connect/copy increment both referenced counters, move
transfers the references without touching any counter, destruction
decrements exactly the non-null references. -/
theorem C3_usage_counts_match_refs (ops : List Op) (st : Graph)
    (h : Graph.run ops = some st) :
    (∀ p c, st.ins.getD p none = some c → c = st.inPins.getD p 0 + refsIn st.nodes p) ∧
    (∀ p c, st.outs.getD p none = some c → c = st.outPins.getD p 0 + refsOut st.nodes p) :=
  ⟨(Graph.run_inv ops st h).hin, (Graph.run_inv ops st h).hout⟩

theorem C3_witness :
    (3 : Nat) =
      (Graph.mk [some 3] [some 2] [1] [0]
        [MatrixPoint.mk (some 0) (some 0) 1, MatrixPoint.mk (some 0) (some 0) 1]).inPins.getD 0 0 +
      refsIn (Graph.mk [some 3] [some 2] [1] [0]
        [MatrixPoint.mk (some 0) (some 0) 1, MatrixPoint.mk (some 0) (some 0) 1]).nodes 0 :=
  (C3_usage_counts_match_refs
    [Op.addInput, Op.addOutput, Op.connect 0 0 1, Op.copy 0, Op.move 0, Op.disconnect 0,
      Op.pinInput 0]
    (Graph.mk [some 3] [some 2] [1] [0]
      [MatrixPoint.mk (some 0) (some 0) 1, MatrixPoint.mk (some 0) (some 0) 1])
    (by with_unfolding_all decide)).1 0 3 (by with_unfolding_all decide)

/-- C4: removing a port whose usage counter is non-zero (some matrix point
still references it, or it is still pinned) is rejected with no state
change, and once every dependent matrix point is disconnected (and no pin
is outstanding) removal of the same port succeeds, deleting its slot. -/
theorem C4_remove_gated_by_usage (ops : List Op) (st : Graph) (p c : Nat)
    (hrun : Graph.run ops = some st) :
    (st.ins.getD p none = some c → c ≠ 0 → Graph.step st (Op.removeInput p) = none) ∧
    (st.outs.getD p none = some c → c ≠ 0 → Graph.step st (Op.removeOutput p) = none) ∧
    (st.ins.getD p none = some c → st.inPins.getD p 0 = 0 →
      (∀ nd ∈ st.nodes, nd.input_ ≠ some p) →
      Graph.step st (Op.removeInput p) = some { st with ins := st.ins.set p none }) ∧
    (st.outs.getD p none = some c → st.outPins.getD p 0 = 0 →
      (∀ nd ∈ st.nodes, nd.output_ ≠ some p) →
      Graph.step st (Op.removeOutput p) = some { st with outs := st.outs.set p none }) := by
  have hI := Graph.run_inv ops st hrun
  refine ⟨?_, ?_, ?_, ?_⟩
  · intro hc hc0
    simp [Graph.step, removePort_busy hc hc0]
  · intro hc hc0
    simp [Graph.step, removePort_busy hc hc0]
  · intro hc hpin hfree
    have hc0 : c = 0 := by
      have := hI.hin p c hc
      have := refsIn_eq_zero hfree
      omega
    subst hc0
    simp [Graph.step, removePort_free hc]
  · intro hc hpin hfree
    have hc0 : c = 0 := by
      have := hI.hout p c hc
      have := refsOut_eq_zero hfree
      omega
    subst hc0
    simp [Graph.step, removePort_free hc]

theorem C4_witness :
    Graph.step (Graph.mk [some 1] [some 1] [0] [0] [MatrixPoint.mk (some 0) (some 0) 1])
      (Op.removeInput 0) = none ∧
    Graph.step (Graph.mk [some 0] [some 0] [0] [0] []) (Op.removeInput 0) =
      some (Graph.mk [none] [some 0] [0] [0] []) :=
  ⟨(C4_remove_gated_by_usage [Op.addInput, Op.addOutput, Op.connect 0 0 1]
      (Graph.mk [some 1] [some 1] [0] [0] [MatrixPoint.mk (some 0) (some 0) 1]) 0 1
      (by with_unfolding_all decide)).1 (by with_unfolding_all decide) (by decide),
   (C4_remove_gated_by_usage [Op.addInput, Op.addOutput, Op.connect 0 0 1, Op.disconnect 0]
      (Graph.mk [some 0] [some 0] [0] [0] []) 0 0
      (by with_unfolding_all decide)).2.2.1 (by with_unfolding_all decide) (by decide)
      (by with_unfolding_all decide)⟩

/-- C5: within one run of the mixing loop the single gain snapshot taken
before the loop (`const float gain = gain_.load()`) is the factor applied
at every sample index: for any two indices `i, j` inside the block, the
contribution added at `i` and at `j` uses the same `gain`; a
concurrently stored gain value only affects the atomic, never the snapshot
already taken, so a gain change is never partially applied inside one
block. -/
theorem C5_gain_constant_across_block (gain : ℚ) (samples_count : Nat) (inb outb : Buf)
    (i j : Nat) (hi : i < samples_count) (hj : j < samples_count)
    (hleni : i < outb.length) (hlenj : j < outb.length) :
    (accumulate gain samples_count inb outb).getD i 0 = outb.getD i 0 + gain * inb.getD i 0 ∧
    (accumulate gain samples_count inb outb).getD j 0 = outb.getD j 0 + gain * inb.getD j 0 := by
  constructor
  · rw [accumulate_getD _ _ _ _ _ hleni, if_pos hi]
  · rw [accumulate_getD _ _ _ _ _ hlenj, if_pos hj]

theorem C5_witness :
    (accumulate 3 2 [1, 2] [10, 20]).getD 0 0 = [(10 : ℚ), 20].getD 0 0 + 3 * [(1 : ℚ), 2].getD 0 0 ∧
    (accumulate 3 2 [1, 2] [10, 20]).getD 1 0 = [(10 : ℚ), 20].getD 1 0 + 3 * [(1 : ℚ), 2].getD 1 0 :=
  C5_gain_constant_across_block 3 2 [1, 2] [10, 20] 0 1 (by decide) (by decide)
    (by with_unfolding_all decide) (by with_unfolding_all decide)

/-- C6: the usage counter is a natural number, so never negative;
`decrementUsers` on a zero counter is a contract violation (the embedded
assertion branch), while on a positive counter it succeeds and decreases
the counter by exactly one; an increment followed by a decrement restores
the counter, so no precondition-respecting sequence underflows. -/
theorem C6_unpin_on_zero_is_violation :
    CountUsers.decrementUsers 0 = none ∧
    (∀ c, 0 < c → CountUsers.decrementUsers c = some (c - 1)) ∧
    (∀ c, CountUsers.decrementUsers (CountUsers.incrementUsers c) = some c) := by
  refine ⟨rfl, fun c hc => ?_, fun c => ?_⟩
  · unfold CountUsers.decrementUsers
    rw [if_neg (Nat.pos_iff_ne_zero.mp hc)]
  · unfold CountUsers.decrementUsers CountUsers.incrementUsers
    simp

theorem C6_witness :
    CountUsers.decrementUsers 0 = none ∧
    CountUsers.decrementUsers 5 = some 4 ∧
    CountUsers.decrementUsers (CountUsers.incrementUsers 7) = some 7 :=
  ⟨C6_unpin_on_zero_is_violation.1, C6_unpin_on_zero_is_violation.2.1 5 (by decide),
    C6_unpin_on_zero_is_violation.2.2 7⟩

/-- C7 counterexample: the claim says `buffer()` fails with a contract
violation whenever it is called before `updateBufferAddress` in the
*current* block.  The code only asserts that the cached pointer is
non-null: after block 1 completes, and before any refresh of block 2,
`buffer()` on input port 0 succeeds and returns the stale block-1 pointer
instead of failing. -/
theorem C7_counterexample :
    Dsp.process (fun _ => [1]) (fun _ => [7]) 1 (Dsp.mk [none] [none] []) =
      some (Dsp.mk [some [1]] [some [0]] []) ∧
    Port.buffer ((Dsp.mk [some [1]] [some [0]] []).inputs.getD 0 none) = some [1] := by
  with_unfolding_all decide

/-- C7 amended: `buffer()` fails with the contract violation exactly on a
null cached pointer (a never-refreshed port, modelled `none`); it cannot
detect a stale pointer from an earlier block.  After `Dsp::process` has
refreshed the ports, `buffer()` on input `k` returns precisely the pointer
obtained from the backend for this block. -/
theorem C7_buffer_contract (backendIn backendOut : Nat → Buf) (n : Nat) (st st' : Dsp)
    (h : Dsp.process backendIn backendOut n st = some st') :
    Port.buffer none = none ∧
    ∀ k, k < st.inputs.length →
      Port.buffer (st'.inputs.getD k none) = some (backendIn k) := by
  refine ⟨rfl, fun k hk => ?_⟩
  have hfold : st'.inputs = (refreshed backendIn backendOut n st).inputs := by
    rw [Dsp.process_eq_fold] at h
    exact foldPoints_inputs n _ _ _ h
  rw [hfold, getD_eq_of_getElem? (refreshed_inputs_getElem? backendIn backendOut n st k hk)]
  rfl

theorem C7_witness :
    Port.buffer none = none ∧
    ∀ k, k < (Dsp.mk [none] [none] []).inputs.length →
      Port.buffer ((Dsp.mk [some [4]] [some [0]] []).inputs.getD k none) =
        some ((fun _ => [4]) k) :=
  C7_buffer_contract (fun _ => [4]) (fun _ => [8]) 1 (Dsp.mk [none] [none] [])
    (Dsp.mk [some [4]] [some [0]] []) (by with_unfolding_all decide)

/-- C8 counterexample: the claim says that on an anomaly such as a null
input buffer pointer the gain node produces silence for the block and
carries on.  In the code the node calls `Port::buffer`, whose
`assert(buffer_)` is a contract violation: processing does not complete at
all (modelled `none`), it does not succeed with a silent contribution. -/
theorem C8_counterexample :
    MatrixPoint.process 1 (Dsp.mk [none] [some [0]] [])
      (MatrixPoint.mk (some 0) (some 0) 1) = none := by
  with_unfolding_all decide

/-- C8 amended: a null input or output buffer pointer observed by a gain
node's `process` is a contract violation — the assertion in
`Port::buffer` fires and the mixing loop is never reached — rather than
being swallowed by producing silence. -/
theorem C8_null_buffer_contract (n : Nat) (st : Dsp) (pt : MatrixPoint) :
    (∀ i, pt.input_ = some i → st.inputs[i]? = some none →
      MatrixPoint.process n st pt = none) ∧
    (∀ i o b, pt.input_ = some i → st.inputs[i]? = some (some b) →
      pt.output_ = some o → st.outputs[o]? = some none →
      MatrixPoint.process n st pt = none) := by
  constructor
  · intro i h1 h2
    simp [MatrixPoint.process, h1, h2, Port.buffer]
  · intro i o b h1 h2 h3 h4
    simp [MatrixPoint.process, h1, h2, h3, h4, Port.buffer]

theorem C8_witness :
    MatrixPoint.process 2 (Dsp.mk [none] [some [0, 0]] [])
      (MatrixPoint.mk (some 0) (some 0) 2) = none ∧
    MatrixPoint.process 2 (Dsp.mk [some [1, 1]] [none] [])
      (MatrixPoint.mk (some 0) (some 0) 2) = none :=
  ⟨(C8_null_buffer_contract 2 (Dsp.mk [none] [some [0, 0]] [])
      (MatrixPoint.mk (some 0) (some 0) 2)).1 0 (by decide) (by with_unfolding_all decide),
   (C8_null_buffer_contract 2 (Dsp.mk [some [1, 1]] [none] [])
      (MatrixPoint.mk (some 0) (some 0) 2)).2 0 0 [1, 1] (by decide)
      (by with_unfolding_all decide) (by decide) (by with_unfolding_all decide)⟩

/-- C9: connecting the same (input, output) pair twice creates two
independent gain nodes — the second `connect` appends a second
`MatrixPoint`, it does not replace the first — and after one processed
block the shared output holds the sum of both contributions,
`g1 * input[i] + g2 * input[i]`, accumulated onto the zeroed buffer. -/
theorem C9_connect_twice_sums (g1 g2 : ℚ) (inb outb : Buf) (n : Nat)
    (hin : inb.length = n) (hout : outb.length = n) :
    Graph.run [Op.addInput, Op.addOutput, Op.connect 0 0 g1, Op.connect 0 0 g2] =
      some (Graph.mk [some 2] [some 2] [0] [0]
        [MatrixPoint.mk (some 0) (some 0) g1, MatrixPoint.mk (some 0) (some 0) g2]) ∧
    ∃ st', Dsp.process (fun _ => inb) (fun _ => outb) n
        (Dsp.mk [none] [none]
          [MatrixPoint.mk (some 0) (some 0) g1, MatrixPoint.mk (some 0) (some 0) g2]) =
        some st' ∧
      ∀ i, i < n → outSample st'.outputs 0 i = g1 * inb.getD i 0 + g2 * inb.getD i 0 := by
  constructor
  · rfl
  · obtain ⟨st', h1, _, _, _, h5⟩ := Dsp.process_spec (fun _ => inb) (fun _ => outb) n
      (Dsp.mk [none] [none]
        [MatrixPoint.mk (some 0) (some 0) g1, MatrixPoint.mk (some 0) (some 0) g2])
      (by simp [validTopology])
    refine ⟨st', h1, fun i hi => ?_⟩
    have := h5 0 i (by simp) hi
    rw [this]
    simp

theorem C9_witness :
    Graph.run [Op.addInput, Op.addOutput, Op.connect 0 0 1, Op.connect 0 0 2] =
      some (Graph.mk [some 2] [some 2] [0] [0]
        [MatrixPoint.mk (some 0) (some 0) 1, MatrixPoint.mk (some 0) (some 0) 2]) ∧
    ∃ st', Dsp.process (fun _ => [1]) (fun _ => [9]) 1
        (Dsp.mk [none] [none]
          [MatrixPoint.mk (some 0) (some 0) 1, MatrixPoint.mk (some 0) (some 0) 2]) =
        some st' ∧
      ∀ i, i < 1 → outSample st'.outputs 0 i = 1 * [(1 : ℚ)].getD i 0 + 2 * [(1 : ℚ)].getD i 0 :=
  C9_connect_twice_sums 1 2 [1] [9] 1 (by decide) (by decide)

/-- C10: moving from a gain node and then destroying the moved-from node
leaves the usage counters of the ports it formerly referenced unchanged:
the move constructor nulls out the source's port references and the
destructor decrements a counter only through a non-null reference. -/
theorem C10_move_then_destroy_counters_unchanged (st : Graph) (k : Nat) (nd : MatrixPoint)
    (h : st.nodes[k]? = some nd) :
    ∃ st1, Graph.step st (Op.move k) = some st1 ∧ st1.ins = st.ins ∧ st1.outs = st.outs ∧
      ∃ st2, Graph.step st1 (Op.disconnect k) = some st2 ∧
        st2.ins = st.ins ∧ st2.outs = st.outs := by
  have hk : k < st.nodes.length := (List.getElem?_eq_some.mp h).1
  have h2 : ((st.nodes.set k (MatrixPoint.mk none none nd.gain_)) ++ [nd])[k]? =
      some (MatrixPoint.mk none none nd.gain_) := by
    rw [List.getElem?_append]
    rw [if_pos (by rw [List.length_set]; exact hk)]
    simp [List.getElem?_set, hk]
  refine ⟨Graph.mk st.ins st.outs st.inPins st.outPins
      ((st.nodes.set k (MatrixPoint.mk none none nd.gain_)) ++ [nd]),
      by simp [Graph.step, h], rfl, rfl,
    Graph.mk st.ins st.outs st.inPins st.outPins
      (((st.nodes.set k (MatrixPoint.mk none none nd.gain_)) ++ [nd]).eraseIdx k),
      by simp [Graph.step, h2, decPort], rfl, rfl⟩

theorem C10_witness :
    ∃ st1, Graph.step (Graph.mk [some 1] [some 1] [0] [0] [MatrixPoint.mk (some 0) (some 0) 1])
        (Op.move 0) = some st1 ∧
      st1.ins = (Graph.mk [some 1] [some 1] [0] [0] [MatrixPoint.mk (some 0) (some 0) 1]).ins ∧
      st1.outs = (Graph.mk [some 1] [some 1] [0] [0] [MatrixPoint.mk (some 0) (some 0) 1]).outs ∧
      ∃ st2, Graph.step st1 (Op.disconnect 0) = some st2 ∧
        st2.ins = (Graph.mk [some 1] [some 1] [0] [0] [MatrixPoint.mk (some 0) (some 0) 1]).ins ∧
        st2.outs = (Graph.mk [some 1] [some 1] [0] [0] [MatrixPoint.mk (some 0) (some 0) 1]).outs :=
  C10_move_then_destroy_counters_unchanged
    (Graph.mk [some 1] [some 1] [0] [0] [MatrixPoint.mk (some 0) (some 0) 1]) 0
    (MatrixPoint.mk (some 0) (some 0) 1) (by with_unfolding_all decide)

end Tellyo
